import Mathlib

/-!
Shallow embedding of the SRT subtitle analyzer (`analise_legenda.py` and
`analise_legendas.py`) and proofs about its parser, text sanitizer,
timestamp codec and statistics engine.

Strings are modelled as `List Char`, absolute times as integer milliseconds
(Python `timedelta` arithmetic on these values is exact).
-/

namespace Srt

/-- Whitespace characters removed by Python `str.strip()` (ASCII subset). -/
def isPySpace (c : Char) : Bool :=
  c = ' ' || c = '\t' || c = '\n' || c = '\r' || c = '\x0b' || c = '\x0c'

/-- Word characters for the regex word boundary `\b`: ASCII letters, digits, underscore. -/
def isWordChar (c : Char) : Bool := c.isAlphanum || c = '_'

/-- Scan for the first closing delimiter `cl`, failing at a newline (the regex `.`
does not match a newline); on success returns the remainder after the closer.
Models the non-greedy search `.*?` up to the first closer. -/
def findClose (cl : Char) : List Char → Option (List Char)
  | [] => none
  | c :: cs => if c = cl then some cs else if c = '\n' then none else findClose cl cs

theorem findClose_length {cl : Char} :
    ∀ {cs rest : List Char}, findClose cl cs = some rest → rest.length < cs.length
  | [], _, h => by simp [findClose] at h
  | c :: cs, rest, h => by
    by_cases h1 : c = cl
    · simp only [findClose, if_pos h1] at h
      cases h
      simp
    · by_cases h2 : c = '\n'
      · subst h2
        simp [findClose, h1] at h
      · simp only [findClose, if_neg h1, if_neg h2] at h
        have := findClose_length h
        simp only [List.length_cons]
        omega

/-- One `re.sub(r'<.*?>', '', s)`-style pass (parametrized by the delimiters):
delete each opener together with everything up to the first closer on the same
line, scanning left to right; an opener with no closer is kept. -/
def subDelim (op cl : Char) : List Char → List Char
  | [] => []
  | c :: cs =>
    if c = op then
      match h : findClose cl cs with
      | some rest => subDelim op cl rest
      | none => c :: subDelim op cl cs
    else c :: subDelim op cl cs
termination_by l => l.length
decreasing_by
  · exact Nat.lt_succ_of_lt (findClose_length h)
  · simp
  · simp

/-- Attempt of the pattern `\\[a-zA-Z]+\b` just after a backslash: returns the
remainder after the letter run when the run is non-empty and is followed by a
word boundary (end of string or a non-word character). -/
def slashMatchAt (cs : List Char) : Option (List Char) :=
  if (cs.takeWhile Char.isAlpha).isEmpty then none
  else match cs.dropWhile Char.isAlpha with
    | [] => some []
    | d :: rest => if isWordChar d then none else some (d :: rest)

theorem slashMatchAt_length {cs rest : List Char} (h : slashMatchAt cs = some rest) :
    rest.length < cs.length := by
  unfold slashMatchAt at h
  by_cases he : (cs.takeWhile Char.isAlpha).isEmpty
  · simp [he] at h
  · rw [if_neg he] at h
    have hlen : (cs.dropWhile Char.isAlpha).length < cs.length := by
      have h1 : (cs.takeWhile Char.isAlpha).length + (cs.dropWhile Char.isAlpha).length
          = cs.length := by
        rw [← List.length_append, List.takeWhile_append_dropWhile]
      have h2 : (cs.takeWhile Char.isAlpha).length ≠ 0 := by
        simpa [List.isEmpty_iff, List.length_eq_zero] using he
      omega
    cases hd : cs.dropWhile Char.isAlpha with
    | nil => rw [hd] at h; cases h; rw [hd] at hlen; simpa using hlen
    | cons d ds =>
      rw [hd] at h
      by_cases hw : isWordChar d
      · simp [hw] at h
      · simp only [hw, if_false, Bool.false_eq_true] at h
        cases h
        rw [hd] at hlen
        exact hlen

/-- One `re.sub(r'\\[a-zA-Z]+\b', '', s)` pass. -/
def subSlash : List Char → List Char
  | [] => []
  | c :: cs =>
    if c = '\\' then
      match h : slashMatchAt cs with
      | some rest => subSlash rest
      | none => c :: subSlash cs
    else c :: subSlash cs
termination_by l => l.length
decreasing_by
  · exact Nat.lt_succ_of_lt (slashMatchAt_length h)
  · simp
  · simp

/-- Python `str.strip()`: drop whitespace from both ends. -/
def pyStrip (l : List Char) : List Char := (l.dropWhile isPySpace).rdropWhile isPySpace

/-- `clean_text` (identical in both source files): remove `<.*?>` spans, then
`{.*?}` spans, then `\\[a-zA-Z]+\b` codes, then strip surrounding whitespace. -/
def clean_text (l : List Char) : List Char :=
  pyStrip (subSlash (subDelim '{' '}' (subDelim '<' '>' l)))

example : clean_text "<i>Hello</i> \x7b\\an8\x7dWorld\\N".data = "Hello World".data := by
  simp +decide [clean_text, subDelim, findClose, subSlash, slashMatchAt, pyStrip,
    List.rdropWhile, isPySpace, isWordChar, List.dropWhile, List.takeWhile]

example : clean_text "\\ab1".data = "\\ab1".data := by
  simp +decide [clean_text, subDelim, findClose, subSlash, slashMatchAt, pyStrip,
    List.rdropWhile, isPySpace, isWordChar, List.dropWhile, List.takeWhile]

/-! ### Idempotency machinery for `clean_text` -/

/-- `true` iff the list still contains a delimited span the corresponding
`re.sub` pass would remove. -/
def hasDelim (op cl : Char) : List Char → Bool
  | [] => false
  | c :: cs => if c = op then ((findClose cl cs).isSome || hasDelim op cl cs) else hasDelim op cl cs

/-- `true` iff the list still contains a `\\[a-zA-Z]+\b` match. -/
def hasSlashMatch : List Char → Bool
  | [] => false
  | c :: cs =>
    if c = '\\' then ((slashMatchAt cs).isSome || hasSlashMatch cs) else hasSlashMatch cs

theorem hasDelim_nil {op cl : Char} : hasDelim op cl [] = false := rfl

theorem hasDelim_cons {op cl c : Char} {cs : List Char} :
    hasDelim op cl (c :: cs)
      = if c = op then ((findClose cl cs).isSome || hasDelim op cl cs) else hasDelim op cl cs :=
  rfl

theorem hasSlashMatch_cons {c : Char} {cs : List Char} :
    hasSlashMatch (c :: cs)
      = if c = '\\' then ((slashMatchAt cs).isSome || hasSlashMatch cs) else hasSlashMatch cs :=
  rfl

theorem hasDelim_tail {op cl c : Char} {cs : List Char}
    (h : hasDelim op cl (c :: cs) = false) : hasDelim op cl cs = false := by
  rw [hasDelim_cons] at h
  by_cases hc : c = op
  · rw [if_pos hc, Bool.or_eq_false_iff] at h
    exact h.2
  · rwa [if_neg hc] at h

theorem hasSlashMatch_tail {c : Char} {cs : List Char}
    (h : hasSlashMatch (c :: cs) = false) : hasSlashMatch cs = false := by
  rw [hasSlashMatch_cons] at h
  by_cases hc : c = '\\'
  · rw [if_pos hc, Bool.or_eq_false_iff] at h
    exact h.2
  · rwa [if_neg hc] at h

theorem option_isSome_false_iff {α : Type} {o : Option α} : o.isSome = false ↔ o = none := by
  cases o <;> simp

theorem findClose_none_append {cl : Char} {l r : List Char}
    (h : findClose cl (l ++ r) = none) : findClose cl l = none := by
  induction l with
  | nil => rfl
  | cons c cs ih =>
    rw [List.cons_append, findClose] at h
    rw [findClose]
    by_cases h1 : c = cl
    · rw [if_pos h1] at h
      exact absurd h (by simp)
    · by_cases h2 : c = '\n'
      · rw [if_neg h1, if_pos h2]
      · rw [if_neg h1, if_neg h2] at h ⊢
        exact ih h

theorem hasDelim_append {op cl : Char} {l r : List Char}
    (h : hasDelim op cl (l ++ r) = false) : hasDelim op cl l = false := by
  induction l with
  | nil => rfl
  | cons c cs ih =>
    rw [List.cons_append, hasDelim_cons] at h
    rw [hasDelim_cons]
    by_cases hc : c = op
    · rw [if_pos hc, Bool.or_eq_false_iff] at h ⊢
      refine ⟨?_, ih h.2⟩
      rw [option_isSome_false_iff] at h ⊢
      exact findClose_none_append h.1
    · rw [if_neg hc] at h ⊢
      exact ih h

theorem hasDelim_dropWhile {op cl : Char} {p : Char → Bool} {l : List Char}
    (h : hasDelim op cl l = false) : hasDelim op cl (l.dropWhile p) = false := by
  induction l with
  | nil => exact h
  | cons c cs ih =>
    rw [List.dropWhile_cons]
    by_cases hp : p c
    · simp only [hp, if_true]
      exact ih (hasDelim_tail h)
    · simp only [hp, if_false]
      exact h

theorem hasSlashMatch_dropWhile {p : Char → Bool} {l : List Char}
    (h : hasSlashMatch l = false) : hasSlashMatch (l.dropWhile p) = false := by
  induction l with
  | nil => exact h
  | cons c cs ih =>
    rw [List.dropWhile_cons]
    by_cases hp : p c
    · simp only [hp, if_true]
      exact ih (hasSlashMatch_tail h)
    · simp only [hp, if_false]
      exact h

/-! Unfolding equations for the well-founded recursions. -/

theorem subDelim_nil {op cl : Char} : subDelim op cl [] = [] := by rw [subDelim]

theorem subDelim_cons_close {op cl : Char} {cs rest : List Char}
    (h : findClose cl cs = some rest) :
    subDelim op cl (op :: cs) = subDelim op cl rest := by
  rw [subDelim, if_pos rfl]
  split
  · rename_i rest2 h2
    rw [h] at h2
    cases h2
    rfl
  · rename_i h2
    rw [h] at h2
    cases h2

theorem subDelim_cons_noclose {op cl : Char} {cs : List Char} (h : findClose cl cs = none) :
    subDelim op cl (op :: cs) = op :: subDelim op cl cs := by
  rw [subDelim, if_pos rfl]
  split
  · rename_i rest h2
    rw [h] at h2
    cases h2
  · rfl

theorem subDelim_cons_ne {op cl c : Char} {cs : List Char} (h : c ≠ op) :
    subDelim op cl (c :: cs) = c :: subDelim op cl cs := by
  rw [subDelim]
  simp [h]

theorem subSlash_nil : subSlash [] = [] := by rw [subSlash]

theorem subSlash_cons_match {cs rest : List Char} (h : slashMatchAt cs = some rest) :
    subSlash ('\\' :: cs) = subSlash rest := by
  rw [subSlash, if_pos rfl]
  split
  · rename_i rest2 h2
    rw [h] at h2
    cases h2
    rfl
  · rename_i h2
    rw [h] at h2
    cases h2

theorem subSlash_cons_nomatch {cs : List Char} (h : slashMatchAt cs = none) :
    subSlash ('\\' :: cs) = '\\' :: subSlash cs := by
  rw [subSlash, if_pos rfl]
  split
  · rename_i rest h2
    rw [h] at h2
    cases h2
  · rfl

theorem subSlash_cons_ne {c : Char} {cs : List Char} (h : c ≠ '\\') :
    subSlash (c :: cs) = c :: subSlash cs := by
  rw [subSlash]
  simp [h]

/-! The passes only delete characters, and never delete a newline. -/

theorem findClose_sublist {cl : Char} :
    ∀ {cs rest : List Char}, findClose cl cs = some rest → rest.Sublist cs
  | c :: cs, rest, h => by
    rw [findClose] at h
    by_cases h1 : c = cl
    · rw [if_pos h1] at h
      cases h
      exact (List.sublist_cons_self c _)
    · by_cases h2 : c = '\n'
      · rw [if_neg h1, if_pos h2] at h
        cases h
      · rw [if_neg h1, if_neg h2] at h
        exact (findClose_sublist h).trans (List.sublist_cons_self c cs)

theorem findClose_count {cl : Char} (hcl : cl ≠ '\n') :
    ∀ {cs rest : List Char}, findClose cl cs = some rest →
      List.count '\n' rest = List.count '\n' cs
  | c :: cs, rest, h => by
    rw [findClose] at h
    by_cases h1 : c = cl
    · rw [if_pos h1] at h
      cases h
      subst h1
      simp [List.count_cons, hcl]
    · by_cases h2 : c = '\n'
      · rw [if_neg h1, if_pos h2] at h
        cases h
      · rw [if_neg h1, if_neg h2] at h
        rw [findClose_count hcl h]
        simp [List.count_cons, h2]

theorem subDelim_sublist (op cl : Char) (l : List Char) : (subDelim op cl l).Sublist l := by
  induction l using subDelim.induct op cl with
  | case1 => rw [subDelim_nil]
  | case2 cs rest h ih =>
    rw [subDelim_cons_close h]
    exact (ih.trans (findClose_sublist h)).trans (List.sublist_cons_self op cs)
  | case3 cs h ih =>
    rw [subDelim_cons_noclose h]
    exact ih.cons₂ op
  | case4 c cs h ih =>
    rw [subDelim_cons_ne h]
    exact ih.cons₂ c

theorem subDelim_count (op cl : Char) (hop : op ≠ '\n') (hcl : cl ≠ '\n') (l : List Char) :
    List.count '\n' (subDelim op cl l) = List.count '\n' l := by
  induction l using subDelim.induct op cl with
  | case1 => rw [subDelim_nil]
  | case2 cs rest h ih =>
    rw [subDelim_cons_close h, ih, findClose_count hcl h]
    simp [List.count_cons, hop]
  | case3 cs h ih =>
    rw [subDelim_cons_noclose h]
    simp [List.count_cons, ih]
  | case4 c cs h ih =>
    rw [subDelim_cons_ne h]
    simp [List.count_cons, ih]

theorem slashMatchAt_some {cs rest : List Char} (h : slashMatchAt cs = some rest) :
    rest = cs.dropWhile Char.isAlpha ∧ cs.takeWhile Char.isAlpha ≠ [] := by
  unfold slashMatchAt at h
  by_cases he : (cs.takeWhile Char.isAlpha).isEmpty
  · simp [he] at h
  · rw [if_neg he] at h
    have hne : cs.takeWhile Char.isAlpha ≠ [] := by
      simpa [List.isEmpty_iff] using he
    cases hd : cs.dropWhile Char.isAlpha with
    | nil =>
      rw [hd] at h
      cases h
      exact ⟨rfl, hne⟩
    | cons d ds =>
      rw [hd] at h
      by_cases hw : isWordChar d
      · simp [hw] at h
      · simp only [hw, if_false, Bool.false_eq_true] at h
        cases h
        exact ⟨rfl, hne⟩

theorem slashMatchAt_some_head {cs ds : List Char} {d : Char}
    (h : slashMatchAt cs = some (d :: ds)) : isWordChar d = false := by
  unfold slashMatchAt at h
  by_cases he : (cs.takeWhile Char.isAlpha).isEmpty
  · simp [he] at h
  · rw [if_neg he] at h
    cases hd : cs.dropWhile Char.isAlpha with
    | nil =>
      rw [hd] at h
      cases h
    | cons d2 ds2 =>
      rw [hd] at h
      by_cases hw : isWordChar d2
      · simp [hw] at h
      · simp only [hw, if_false, Bool.false_eq_true] at h
        cases h
        simpa using hw

theorem count_nl_dropWhile_alpha (cs : List Char) :
    List.count '\n' (cs.dropWhile Char.isAlpha) = List.count '\n' cs := by
  conv_rhs => rw [← List.takeWhile_append_dropWhile (p := Char.isAlpha) (l := cs)]
  rw [List.count_append]
  have h0 : List.count '\n' (cs.takeWhile Char.isAlpha) = 0 := by
    rw [List.count_eq_zero]
    intro hmem
    have := List.mem_takeWhile_imp hmem
    simp at this
  omega

theorem subSlash_sublist (l : List Char) : (subSlash l).Sublist l := by
  induction l using subSlash.induct with
  | case1 => rw [subSlash_nil]
  | case2 cs rest h ih =>
    rw [subSlash_cons_match h]
    have hr : rest.Sublist cs := by
      rw [(slashMatchAt_some h).1]
      exact List.dropWhile_sublist _
    exact (ih.trans hr).trans (List.sublist_cons_self _ cs)
  | case3 cs h ih =>
    rw [subSlash_cons_nomatch h]
    exact ih.cons₂ _
  | case4 c cs h ih =>
    rw [subSlash_cons_ne h]
    exact ih.cons₂ c

theorem subSlash_count (l : List Char) :
    List.count '\n' (subSlash l) = List.count '\n' l := by
  induction l using subSlash.induct with
  | case1 => rw [subSlash_nil]
  | case2 cs rest h ih =>
    rw [subSlash_cons_match h, ih, (slashMatchAt_some h).1, count_nl_dropWhile_alpha]
    simp +decide [List.count_cons]
  | case3 cs h ih =>
    rw [subSlash_cons_nomatch h]
    simp +decide [List.count_cons, ih]
  | case4 c cs h ih =>
    rw [subSlash_cons_ne h]
    simp [List.count_cons, ih]

theorem findClose_none_sublist {cl : Char} {l l2 : List Char} (h : l2.Sublist l)
    (hc : List.count '\n' l2 = List.count '\n' l) (hn : findClose cl l = none) :
    findClose cl l2 = none := by
  induction h with
  | slnil => rfl
  | @cons l2 l a h ih =>
    rw [findClose] at hn
    by_cases h1 : a = cl
    · rw [if_pos h1] at hn
      cases hn
    · by_cases h2 : a = '\n'
      · exfalso
        have hle := h.count_le '\n'
        rw [hc] at hle
        subst h2
        simp [List.count_cons] at hle
      · rw [if_neg h1, if_neg h2] at hn
        rw [List.count_cons] at hc
        simp only [h2, beq_iff_eq, if_false] at hc
        exact ih (by omega) hn
  | @cons₂ l2 l a h ih =>
    rw [findClose] at hn ⊢
    by_cases h1 : a = cl
    · rw [if_pos h1] at hn
      cases hn
    · by_cases h2 : a = '\n'
      · rw [if_neg h1, if_pos h2]
      · rw [if_neg h1, if_neg h2] at hn ⊢
        refine ih ?_ hn
        simpa [List.count_cons] using hc

theorem hasDelim_false_sublist {op cl : Char} {l l2 : List Char} (h : l2.Sublist l)
    (hc : List.count '\n' l2 = List.count '\n' l) (hd : hasDelim op cl l = false) :
    hasDelim op cl l2 = false := by
  induction h with
  | slnil => rfl
  | @cons l2 l a h ih =>
    by_cases h2 : a = '\n'
    · exfalso
      have hle := h.count_le '\n'
      rw [hc] at hle
      subst h2
      simp [List.count_cons] at hle
    · rw [List.count_cons] at hc
      simp only [h2, beq_iff_eq, if_false] at hc
      exact ih (by omega) (hasDelim_tail hd)
  | @cons₂ l2 l a h ih =>
    have hc2 : List.count '\n' l2 = List.count '\n' l := by
      rw [List.count_cons, List.count_cons] at hc
      omega
    rw [hasDelim_cons] at hd ⊢
    by_cases h1 : a = op
    · rw [if_pos h1, Bool.or_eq_false_iff] at hd ⊢
      refine ⟨?_, ih hc2 hd.2⟩
      rw [option_isSome_false_iff] at hd ⊢
      exact findClose_none_sublist h hc2 hd.1
    · rw [if_neg h1] at hd ⊢
      exact ih hc2 hd

/-- The first character of `subSlash cs` is not an ASCII letter whenever the first
character of `cs` is not (the pass can expose only a non-word character). -/
theorem subSlash_headAlpha :
    ∀ {cs : List Char}, (cs.head?.map Char.isAlpha).getD false = false →
      ((subSlash cs).head?.map Char.isAlpha).getD false = false := by
  intro cs
  induction cs using subSlash.induct with
  | case1 => intro _; rw [subSlash_nil]; rfl
  | case2 cs rest h ih =>
    intro _
    rw [subSlash_cons_match h]
    refine ih ?_
    cases hr : rest with
    | nil => rfl
    | cons d ds =>
      subst hr
      have hw := slashMatchAt_some_head h
      have : d.isAlpha = false := by
        rcases Bool.eq_false_or_eq_true d.isAlpha with hfa | hta
        · exfalso
          rw [isWordChar, Char.isAlphanum, hfa] at hw
          simp at hw
        · exact hta
      simp [this]
  | case3 cs h ih =>
    intro _
    rw [subSlash_cons_nomatch h]
    simp +decide
  | case4 c cs h ih =>
    intro hc
    rw [subSlash_cons_ne h]
    simpa using hc

theorem subSlash_append_no_backslash :
    ∀ {x r : List Char}, (∀ c ∈ x, c ≠ '\\') → subSlash (x ++ r) = x ++ subSlash r
  | [], r, _ => by simp
  | c :: x, r, hx => by
    rw [List.cons_append, subSlash_cons_ne (hx c (by simp)),
      subSlash_append_no_backslash (fun d hd => hx d (by simp [hd]))]
    rfl

theorem slashMatchAt_none_of_headAlpha {cs : List Char}
    (h : (cs.head?.map Char.isAlpha).getD false = false) : slashMatchAt cs = none := by
  unfold slashMatchAt
  cases cs with
  | nil => simp
  | cons c cs2 =>
    simp only [List.head?_cons, Option.map_some', Option.getD_some] at h
    rw [List.takeWhile_cons_of_neg (by simp [h])]
    simp

/-- After the `subSlash` pass no `\\[a-zA-Z]+\b` match remains. -/
theorem subSlash_no_match (l : List Char) : hasSlashMatch (subSlash l) = false := by
  induction l using subSlash.induct with
  | case1 => rw [subSlash_nil]; rfl
  | case2 cs rest h ih =>
    rw [subSlash_cons_match h]
    exact ih
  | case3 cs h ih =>
    rw [subSlash_cons_nomatch h, hasSlashMatch_cons, if_pos rfl, Bool.or_eq_false_iff]
    refine ⟨?_, ih⟩
    rw [option_isSome_false_iff]
    -- analyse why the match failed on `cs`
    by_cases he : (cs.takeWhile Char.isAlpha).isEmpty
    · apply slashMatchAt_none_of_headAlpha
      apply subSlash_headAlpha
      cases cs with
      | nil => rfl
      | cons c cs2 =>
        by_cases ha : c.isAlpha
        · rw [List.takeWhile_cons_of_pos ha] at he
          simp at he
        · simp only [List.head?_cons, Option.map_some', Option.getD_some]
          exact Bool.eq_false_iff.mpr ha
    · -- the letter run is followed by a word character; the failure persists
      unfold slashMatchAt at h
      rw [if_neg he] at h
      cases hd : cs.dropWhile Char.isAlpha with
      | nil =>
        rw [hd] at h
        cases h
      | cons d ds =>
        rw [hd] at h
        by_cases hw : isWordChar d
        · have hrun : ∀ c2 ∈ cs.takeWhile Char.isAlpha, Char.isAlpha c2 :=
            fun c2 hc2 => List.mem_takeWhile_imp hc2
          have hsplit : cs.takeWhile Char.isAlpha ++ d :: ds = cs := by
            rw [← hd, List.takeWhile_append_dropWhile]
          have hdalpha : d.isAlpha = false := by
            have h9 := List.head?_dropWhile_not Char.isAlpha cs
            rw [hd] at h9
            simpa using h9
          have hdne : d ≠ '\\' := by
            intro he2
            subst he2
            rw [isWordChar, Char.isAlphanum] at hw
            simp +decide at hw
          have hss : subSlash cs = cs.takeWhile Char.isAlpha ++ d :: subSlash ds := by
            conv_lhs => rw [← hsplit]
            rw [subSlash_append_no_backslash (fun c2 hc2 => by
              intro he2
              subst he2
              have h8 := hrun _ hc2
              simp +decide at h8)]
            rw [subSlash_cons_ne hdne]
          rw [hss]
          unfold slashMatchAt
          rw [List.takeWhile_append_of_pos hrun,
            List.takeWhile_cons_of_neg (by simp [hdalpha])]
          rw [List.append_nil, if_neg he]
          have hdw : (cs.takeWhile Char.isAlpha ++ d :: subSlash ds).dropWhile Char.isAlpha
              = d :: subSlash ds := by
            rw [List.dropWhile_append]
            have h7 : (cs.takeWhile Char.isAlpha).dropWhile Char.isAlpha = [] := by
              rw [List.dropWhile_eq_nil_iff]
              exact fun x hx => hrun x hx
            rw [h7]
            simp [List.dropWhile_cons_of_neg (by simp [hdalpha] : ¬ Char.isAlpha d = true)]
          rw [hdw]
          simp [hw]
        · simp [hw] at h
  | case4 c cs h ih =>
    rw [subSlash_cons_ne h, hasSlashMatch_cons, if_neg h]
    exact ih

theorem subSlash_id {l : List Char} (h : hasSlashMatch l = false) : subSlash l = l := by
  induction l using subSlash.induct with
  | case1 => rw [subSlash_nil]
  | case2 cs rest h2 ih =>
    exfalso
    rw [hasSlashMatch_cons, if_pos rfl, Bool.or_eq_false_iff] at h
    rw [h2] at h
    simp at h
  | case3 cs h2 ih =>
    rw [subSlash_cons_nomatch h2, ih (hasSlashMatch_tail h)]
  | case4 c cs h2 ih =>
    rw [subSlash_cons_ne h2, ih (hasSlashMatch_tail h)]

/-- After a `subDelim` pass no full delimiter pair remains. -/
theorem subDelim_no_delim (op cl : Char) (hop : op ≠ '\n') (hcl : cl ≠ '\n')
    (l : List Char) : hasDelim op cl (subDelim op cl l) = false := by
  induction l using subDelim.induct op cl with
  | case1 => rw [subDelim_nil]; rfl
  | case2 cs rest h ih =>
    rw [subDelim_cons_close h]
    exact ih
  | case3 cs h ih =>
    rw [subDelim_cons_noclose h, hasDelim_cons, if_pos rfl, Bool.or_eq_false_iff]
    refine ⟨?_, ih⟩
    rw [option_isSome_false_iff]
    exact findClose_none_sublist (subDelim_sublist op cl cs)
      (subDelim_count op cl hop hcl cs) h
  | case4 c cs h ih =>
    rw [subDelim_cons_ne h, hasDelim_cons, if_neg h]
    exact ih

theorem subDelim_id {op cl : Char} {l : List Char} (h : hasDelim op cl l = false) :
    subDelim op cl l = l := by
  induction l using subDelim.induct op cl with
  | case1 => rw [subDelim_nil]
  | case2 cs rest h2 ih =>
    exfalso
    rw [hasDelim_cons, if_pos rfl, Bool.or_eq_false_iff] at h
    rw [h2] at h
    simp at h
  | case3 cs h2 ih =>
    rw [subDelim_cons_noclose h2, ih (hasDelim_tail h)]
  | case4 c cs h2 ih =>
    rw [subDelim_cons_ne h2, ih (hasDelim_tail h)]

theorem isPySpace_not_alpha {c : Char} (h : isPySpace c = true) : c.isAlpha = false := by
  rw [isPySpace] at h
  simp only [Bool.or_eq_true, decide_eq_true_eq] at h
  rcases h with ((((h | h) | h) | h) | h) | h <;> subst h <;> decide

theorem isPySpace_not_word {c : Char} (h : isPySpace c = true) : isWordChar c = false := by
  rw [isPySpace] at h
  simp only [Bool.or_eq_true, decide_eq_true_eq] at h
  rcases h with ((((h | h) | h) | h) | h) | h <;> subst h <;> decide

theorem slashMatchAt_none_ws_append {x w : List Char} (hw : ∀ c ∈ w, isPySpace c)
    (h : slashMatchAt (x ++ w) = none) : slashMatchAt x = none := by
  by_cases hx : (x.takeWhile Char.isAlpha).isEmpty
  · rw [slashMatchAt, if_pos hx]
  · have hxne : x.takeWhile Char.isAlpha ≠ [] := by simpa [List.isEmpty_iff] using hx
    cases hd : x.dropWhile Char.isAlpha with
    | nil =>
      -- x is a non-empty run of letters
      cases w with
      | nil =>
        rw [List.append_nil] at h
        exact h
      | cons d w2 =>
        exfalso
        have hall : ∀ c ∈ x, Char.isAlpha c := by
          intro c hc
          have hxx : x.takeWhile Char.isAlpha = x := by
            have h1 : (x.takeWhile Char.isAlpha).length + (x.dropWhile Char.isAlpha).length
                = x.length := by
              rw [← List.length_append, List.takeWhile_append_dropWhile]
            rw [hd] at h1
            simp only [List.length_nil, Nat.add_zero] at h1
            exact (List.takeWhile_sublist _).eq_of_length h1
          rw [← hxx] at hc
          exact List.mem_takeWhile_imp hc
        have hxe : x ≠ [] := by
          intro he2
          subst he2
          simp at hxne
        have hd2 : isPySpace d = true := hw d (by simp)
        rw [slashMatchAt, List.takeWhile_append_of_pos hall,
          List.takeWhile_cons_of_neg (by simp [isPySpace_not_alpha hd2])] at h
        rw [if_neg (by simp [List.isEmpty_iff, hxe])] at h
        rw [List.dropWhile_append, hd] at h
        simp only [List.isEmpty_nil, if_true] at h
        rw [List.dropWhile_cons_of_neg (by simp [isPySpace_not_alpha hd2])] at h
        simp [isPySpace_not_word hd2] at h
    | cons d ds =>
      -- the run inside x is followed by `d` inside x, in both strings
      have hsplit : x.takeWhile Char.isAlpha ++ d :: ds = x := by
        rw [← hd, List.takeWhile_append_dropWhile]
      have hdalpha : d.isAlpha = false := by
        have h9 := List.head?_dropWhile_not Char.isAlpha x
        rw [hd] at h9
        simpa using h9
      have hrun : ∀ c2 ∈ x.takeWhile Char.isAlpha, Char.isAlpha c2 :=
        fun c2 hc2 => List.mem_takeWhile_imp hc2
      have hx2 : x ++ w = x.takeWhile Char.isAlpha ++ (d :: (ds ++ w)) := by
        conv_lhs => rw [← hsplit]
        simp
      rw [slashMatchAt, hx2, List.takeWhile_append_of_pos hrun,
        List.takeWhile_cons_of_neg (by simp [hdalpha])] at h
      rw [if_neg (by simpa [List.isEmpty_iff] using hxne)] at h
      rw [List.dropWhile_append] at h
      have h7 : (x.takeWhile Char.isAlpha).dropWhile Char.isAlpha = [] := by
        rw [List.dropWhile_eq_nil_iff]
        exact fun y hy => hrun y hy
      rw [h7, List.dropWhile_cons_of_neg (by simp [hdalpha])] at h
      simp only [List.isEmpty_nil, if_true] at h
      by_cases hwd : isWordChar d
      · rw [slashMatchAt, if_neg hx, hd]
        simp [hwd]
      · rw [if_neg hwd] at h
        cases h

theorem hasSlashMatch_ws_append {x w : List Char} (hws : ∀ c ∈ w, isPySpace c)
    (h : hasSlashMatch (x ++ w) = false) : hasSlashMatch x = false := by
  induction x with
  | nil => rfl
  | cons c x ih =>
    rw [List.cons_append, hasSlashMatch_cons] at h
    rw [hasSlashMatch_cons]
    by_cases hc : c = '\\'
    · rw [if_pos hc, Bool.or_eq_false_iff] at h ⊢
      refine ⟨?_, ih h.2⟩
      rw [option_isSome_false_iff] at h ⊢
      exact slashMatchAt_none_ws_append hws h.1
    · rw [if_neg hc] at h ⊢
      exact ih h

theorem rdropWhile_append_rtakeWhile (p : Char → Bool) (l : List Char) :
    l.rdropWhile p ++ l.rtakeWhile p = l := by
  rw [List.rdropWhile, List.rtakeWhile, ← List.reverse_append,
    List.takeWhile_append_dropWhile, List.reverse_reverse]

theorem hasDelim_rdropWhile {op cl : Char} {p : Char → Bool} {l : List Char}
    (h : hasDelim op cl l = false) : hasDelim op cl (l.rdropWhile p) = false := by
  have hdec := rdropWhile_append_rtakeWhile p l
  rw [← hdec] at h
  exact hasDelim_append h

theorem hasSlashMatch_rdropWhile_ws {l : List Char}
    (h : hasSlashMatch l = false) : hasSlashMatch (l.rdropWhile isPySpace) = false := by
  have hdec := rdropWhile_append_rtakeWhile isPySpace l
  rw [← hdec] at h
  exact hasSlashMatch_ws_append (fun c hc => List.mem_rtakeWhile_imp hc) h

theorem hasDelim_pyStrip {op cl : Char} {l : List Char}
    (h : hasDelim op cl l = false) : hasDelim op cl (pyStrip l) = false :=
  hasDelim_rdropWhile (hasDelim_dropWhile h)

theorem hasSlashMatch_pyStrip {l : List Char}
    (h : hasSlashMatch l = false) : hasSlashMatch (pyStrip l) = false :=
  hasSlashMatch_rdropWhile_ws (hasSlashMatch_dropWhile h)

theorem pyStrip_idempotent (l : List Char) : pyStrip (pyStrip l) = pyStrip l := by
  have hstep : (pyStrip l).dropWhile isPySpace = pyStrip l := by
    cases hz : (pyStrip l) with
    | nil => simp
    | cons d z2 =>
      have hzy : pyStrip l = (l.dropWhile isPySpace).rdropWhile isPySpace := rfl
      obtain ⟨t, ht⟩ := List.rdropWhile_prefix _ (l.dropWhile isPySpace)
      have h8 : (l.dropWhile isPySpace).head? = some d := by
        rw [← ht, ← hzy, hz]
        rfl
      have h9 := List.head?_dropWhile_not isPySpace l
      rw [h8] at h9
      have hdy : isPySpace d = false := by simpa using h9
      rw [List.dropWhile_cons_of_neg (by simp [hdy])]
  show ((pyStrip l).dropWhile isPySpace).rdropWhile isPySpace = pyStrip l
  rw [hstep]
  show ((l.dropWhile isPySpace).rdropWhile isPySpace).rdropWhile isPySpace = pyStrip l
  rw [List.rdropWhile_idempotent]
  rfl

/-- The sanitizer is idempotent: a second application of `clean_text` is the
identity on any output of `clean_text`. -/
theorem clean_text_idempotent (l : List Char) : clean_text (clean_text l) = clean_text l := by
  have hlt : ('<' : Char) ≠ '\n' := by decide
  have hgt : ('>' : Char) ≠ '\n' := by decide
  have hlb : ('{' : Char) ≠ '\n' := by decide
  have hrb : ('}' : Char) ≠ '\n' := by decide
  set a := subDelim '<' '>' l with ha
  set b := subDelim '{' '}' a with hb
  set c := subSlash b with hc
  set t := pyStrip c with htdef
  have h1 : hasDelim '<' '>' t = false := by
    apply hasDelim_pyStrip
    apply hasDelim_false_sublist (subSlash_sublist b) (subSlash_count b)
    apply hasDelim_false_sublist (subDelim_sublist '{' '}' a) (subDelim_count _ _ hlb hrb a)
    exact subDelim_no_delim '<' '>' hlt hgt l
  have h2 : hasDelim '{' '}' t = false := by
    apply hasDelim_pyStrip
    apply hasDelim_false_sublist (subSlash_sublist b) (subSlash_count b)
    exact subDelim_no_delim '{' '}' hlb hrb a
  have h3 : hasSlashMatch t = false := by
    apply hasSlashMatch_pyStrip
    exact subSlash_no_match b
  have hCt : clean_text l = t := rfl
  rw [hCt]
  show pyStrip (subSlash (subDelim '{' '}' (subDelim '<' '>' t))) = t
  rw [subDelim_id h1, subDelim_id h2, subSlash_id h3, htdef, hc, hb, ha]
  exact pyStrip_idempotent _

/-! ### Timestamp codec (`parse_time` / `format_timedelta`) -/

/-- Numeric value of a decimal digit character. -/
def digitVal (c : Char) : ℕ := c.toNat - 48

/-- `parse_time` guarded by the timing-regex digit grammar: a timestamp is the
twelve characters `HH:MM:SS,mmm` (2-2-2-3 digit fields); the result is the
duration in milliseconds (`timedelta` arithmetic on these values is exact).
`none` models a string the pattern `\d{2}:\d{2}:\d{2},\d{3}` rejects. -/
def parse_time : List Char → Option ℕ
  | [h1, h2, ':', m1, m2, ':', s1, s2, ',', x1, x2, x3] =>
    if h1.isDigit && h2.isDigit && m1.isDigit && m2.isDigit && s1.isDigit && s2.isDigit
        && x1.isDigit && x2.isDigit && x3.isDigit then
      some ((((digitVal h1 * 10 + digitVal h2) * 60 + (digitVal m1 * 10 + digitVal m2)) * 60
        + (digitVal s1 * 10 + digitVal s2)) * 1000
        + (digitVal x1 * 100 + digitVal x2 * 10 + digitVal x3))
    else none
  | _ => none

/-- Python `f"{n:02d}"` on a natural number. -/
def pad2 (n : ℕ) : List Char :=
  if n < 100 then [Nat.digitChar (n / 10), Nat.digitChar (n % 10)] else (Nat.repr n).data

/-- Python `f"{n:03d}"` on a natural number. -/
def pad3 (n : ℕ) : List Char :=
  if n < 1000 then [Nat.digitChar (n / 100), Nat.digitChar (n / 10 % 10), Nat.digitChar (n % 10)]
  else (Nat.repr n).data

/-- `format_timedelta`: `HH:MM:SS,mmm` with truncated milliseconds, from a
duration in milliseconds. -/
def format_timedelta (ms : ℕ) : List Char :=
  pad2 (ms / 1000 / 3600) ++ ':' :: pad2 (ms / 1000 % 3600 / 60) ++ ':' :: pad2 (ms / 1000 % 60)
    ++ ',' :: pad3 (ms % 1000)

example : parse_time "00:00:01,600".data = some 1600 := by decide

example : format_timedelta 5940000 = "01:39:00,000".data := by decide

theorem digitChar_eq_ofNat {n : ℕ} (h : n < 10) : Nat.digitChar n = Char.ofNat (n + 48) := by
  interval_cases n <;> decide

theorem isDigit_bounds {c : Char} (h : c.isDigit = true) : 48 ≤ c.toNat ∧ c.toNat ≤ 57 := by
  rw [Char.isDigit] at h
  simp only [Bool.and_eq_true, decide_eq_true_eq] at h
  obtain ⟨h1, h2⟩ := h
  constructor
  · exact h1
  · exact h2

theorem digitChar_digitVal {c : Char} (h : c.isDigit = true) :
    Nat.digitChar (digitVal c) = c := by
  obtain ⟨h1, h2⟩ := isDigit_bounds h
  rw [digitVal, digitChar_eq_ofNat (by omega)]
  rw [Nat.sub_add_cancel h1]
  exact Char.ofNat_toNat c

theorem digitVal_lt_ten {c : Char} (h : c.isDigit = true) : digitVal c < 10 := by
  obtain ⟨h1, h2⟩ := isDigit_bounds h
  rw [digitVal]
  omega

theorem isDigit_digitChar {n : ℕ} (h : n < 10) : (Nat.digitChar n).isDigit = true := by
  interval_cases n <;> decide

theorem digitVal_digitChar {n : ℕ} (h : n < 10) : digitVal (Nat.digitChar n) = n := by
  interval_cases n <;> decide

theorem format_parse_roundtrip {h1 h2 m1 m2 s1 s2 x1 x2 x3 : Char} {t : ℕ}
    (hp : parse_time [h1, h2, ':', m1, m2, ':', s1, s2, ',', x1, x2, x3] = some t)
    (hm : digitVal m1 * 10 + digitVal m2 ≤ 59)
    (hs : digitVal s1 * 10 + digitVal s2 ≤ 59) :
    format_timedelta t = [h1, h2, ':', m1, m2, ':', s1, s2, ',', x1, x2, x3] := by
  rw [parse_time] at hp
  by_cases hg : (h1.isDigit && h2.isDigit && m1.isDigit && m2.isDigit && s1.isDigit
      && s2.isDigit && x1.isDigit && x2.isDigit && x3.isDigit) = true
  case neg =>
    rw [if_neg hg] at hp
    cases hp
  rw [if_pos hg] at hp
  simp only [Bool.and_eq_true] at hg
  obtain ⟨⟨⟨⟨⟨⟨⟨⟨d1, d2⟩, d3⟩, d4⟩, d5⟩, d6⟩, d7⟩, d8⟩, d9⟩ := hg
  cases hp
  have b1 := digitVal_lt_ten d1
  have b2 := digitVal_lt_ten d2
  have b3 := digitVal_lt_ten d3
  have b4 := digitVal_lt_ten d4
  have b5 := digitVal_lt_ten d5
  have b6 := digitVal_lt_ten d6
  have b7 := digitVal_lt_ten d7
  have b8 := digitVal_lt_ten d8
  have b9 := digitVal_lt_ten d9
  set H := digitVal h1 * 10 + digitVal h2 with hH
  set M := digitVal m1 * 10 + digitVal m2 with hM
  set S := digitVal s1 * 10 + digitVal s2 with hS
  set X := digitVal x1 * 100 + digitVal x2 * 10 + digitVal x3 with hX
  set t := ((H * 60 + M) * 60 + S) * 1000 + X with ht
  have e1 : t / 1000 / 3600 = H := by omega
  have e2 : t / 1000 % 3600 / 60 = M := by omega
  have e3 : t / 1000 % 60 = S := by omega
  have e4 : t % 1000 = X := by omega
  rw [format_timedelta, e1, e2, e3, e4]
  have p1 : pad2 H = [h1, h2] := by
    rw [pad2, if_pos (by omega)]
    have : H / 10 = digitVal h1 := by omega
    rw [this]
    have : H % 10 = digitVal h2 := by omega
    rw [this, digitChar_digitVal d1, digitChar_digitVal d2]
  have p2 : pad2 M = [m1, m2] := by
    rw [pad2, if_pos (by omega)]
    have : M / 10 = digitVal m1 := by omega
    rw [this]
    have : M % 10 = digitVal m2 := by omega
    rw [this, digitChar_digitVal d3, digitChar_digitVal d4]
  have p3 : pad2 S = [s1, s2] := by
    rw [pad2, if_pos (by omega)]
    have : S / 10 = digitVal s1 := by omega
    rw [this]
    have : S % 10 = digitVal s2 := by omega
    rw [this, digitChar_digitVal d5, digitChar_digitVal d6]
  have p4 : pad3 X = [x1, x2, x3] := by
    rw [pad3, if_pos (by omega)]
    have : X / 100 = digitVal x1 := by omega
    rw [this]
    have : X / 10 % 10 = digitVal x2 := by omega
    rw [this]
    have : X % 10 = digitVal x3 := by omega
    rw [this, digitChar_digitVal d7, digitChar_digitVal d8, digitChar_digitVal d9]
  rw [p1, p2, p3, p4]
  rfl

/-! ### Cue data model and the two block parsers

A cue is the 5-tuple `(start_time, end_time, text_lines, line_number, encoding)`
built by `parse_srt`.  Times are integer milliseconds (`end` is a Lean keyword,
so the field is named `endTime`). -/

structure Cue where
  start : ℤ
  endTime : ℤ
  textLines : List (List Char)
  seqNum : ℤ
  encoding : List Char
deriving DecidableEq

/-- The anchored regex `(\d{2}:\d{2}:\d{2},\d{3}) --> (\d{2}:\d{2}:\d{2},\d{3})`
of both parsers: `re.match` anchors at the start only, so any suffix after the
second group is accepted.  Returns both decoded timestamps. -/
def matchTiming (line : List Char) : Option (ℕ × ℕ) :=
  match line with
  | a1 :: a2 :: a3 :: a4 :: a5 :: a6 :: a7 :: a8 :: a9 :: a10 :: a11 :: a12
      :: ' ' :: '-' :: '-' :: '>' :: ' '
      :: b1 :: b2 :: b3 :: b4 :: b5 :: b6 :: b7 :: b8 :: b9 :: b10 :: b11 :: b12 :: _ =>
    match parse_time [a1, a2, a3, a4, a5, a6, a7, a8, a9, a10, a11, a12],
        parse_time [b1, b2, b3, b4, b5, b6, b7, b8, b9, b10, b11, b12] with
    | some t1, some t2 => some (t1, t2)
    | _, _ => none
  | _ => none

example : matchTiming "00:00:01,600 --> 00:00:03,200".data = some (1600, 3200) := by decide

example : matchTiming "00:00:01,600 -> 00:00:03,200".data = none := by decide

/-- All characters are decimal digits and the list is non-empty; value in base 10. -/
def digitsToNat (ds : List Char) : Option ℕ :=
  match ds with
  | [] => none
  | _ => if ds.all Char.isDigit then some (ds.foldl (fun a c => a * 10 + digitVal c) 0)
    else none

/-- Python `int(s)` on a string: optional surrounding whitespace, optional sign,
then decimal digits; `none` models the `ValueError` raise.  (Python also accepts
underscore digit separators and non-ASCII digits; those are not modelled.) -/
def pyInt (l : List Char) : Option ℤ :=
  match pyStrip l with
  | '+' :: ds => (digitsToNat ds).map (fun n => (n : ℤ))
  | '-' :: ds => (digitsToNat ds).map (fun n => -(n : ℤ))
  | ds => (digitsToNat ds).map (fun n => (n : ℤ))

example : pyInt " 12 ".data = some 12 := by decide

example : pyInt "abc".data = none := by decide

example : pyInt "-07".data = some (-7) := by decide

/-- Split on each occurrence of a blank line (`str.split('\n\n')`). -/
def pySplitNN : List Char → List (List Char)
  | [] => [[]]
  | '\n' :: '\n' :: rest => [] :: pySplitNN rest
  | c :: rest =>
    match pySplitNN rest with
    | [] => [[c]]
    | h :: t => (c :: h) :: t

/-- Split on each newline (`str.split('\n')`). -/
def pySplitNl : List Char → List (List Char)
  | [] => [[]]
  | '\n' :: rest => [] :: pySplitNl rest
  | c :: rest =>
    match pySplitNl rest with
    | [] => [[c]]
    | h :: t => (c :: h) :: t

example : pySplitNN "a\n\n\nb".data = ["a".data, "\nb".data] := by decide

/-- One block of `parse_srt` in `analise_legendas.py` (the directory analyzer):
blocks of fewer than 2 lines or with a non-matching timing line are skipped,
an unparseable sequence number falls back to `0`, and the text lines are
sanitized and filtered at parse time. -/
def parseBlockP (encoding : List Char) (lines : List (List Char)) : Option Cue :=
  match lines with
  | l0 :: l1 :: rest =>
    match matchTiming l1 with
    | none => none
    | some (t1, t2) =>
      some { start := (t1 : ℤ), endTime := (t2 : ℤ),
             textLines := (rest.map clean_text).filter (fun x => x ≠ []),
             seqNum := (pyInt l0).getD 0, encoding := encoding }
  | _ => none

/-- `parse_srt` of `analise_legendas.py` applied to decoded file content. -/
def parse_srt_p (encoding content : List Char) : List Cue :=
  ((pySplitNN (pyStrip content)).map pySplitNl).filterMap (parseBlockP encoding)

/-- One block of `parse_srt` in `analise_legenda.py` (the single-file analyzer):
blocks of fewer than 3 lines or with a non-matching timing line are skipped,
text lines are stored verbatim, and `int(lines[0])` is unguarded — a
non-numeric first line raises `ValueError` (modelled as `Except.error ()`),
aborting the whole parse. -/
def parseBlockS (encoding : List Char) (lines : List (List Char)) :
    Except Unit (Option Cue) :=
  if lines.length < 3 then .ok none
  else
    match lines with
    | l0 :: l1 :: rest =>
      match matchTiming l1 with
      | none => .ok none
      | some (t1, t2) =>
        match pyInt l0 with
        | none => .error ()
        | some n =>
          .ok (some { start := (t1 : ℤ), endTime := (t2 : ℤ), textLines := rest,
                      seqNum := n, encoding := encoding })
    | _ => .ok none

def collectBlocksS (encoding : List Char) : List (List (List Char)) → Except Unit (List Cue)
  | [] => .ok []
  | b :: bs =>
    match parseBlockS encoding b with
    | .error e => .error e
    | .ok none => collectBlocksS encoding bs
    | .ok (some c) => (collectBlocksS encoding bs).map (fun cs => c :: cs)

/-- `parse_srt` of `analise_legenda.py` applied to decoded file content. -/
def parse_srt_s (encoding content : List Char) : Except Unit (List Cue) :=
  collectBlocksS encoding ((pySplitNN (pyStrip content)).map pySplitNl)

/-! ### Statistics engines -/

/-- Words of a line: Python `str.split()` with no argument (split on whitespace
runs, no empties). -/
def pySplitWs : List Char → List (List Char)
  | [] => []
  | c :: cs =>
    if isPySpace c then pySplitWs cs
    else (c :: cs.takeWhile (fun d => !isPySpace d)) :: pySplitWs (cs.dropWhile (fun d => !isPySpace d))
termination_by l => l.length
decreasing_by
  · simp
  · have := (List.dropWhile_sublist (fun d => !isPySpace d) (l := cs)).length_le
    simp only [List.length_cons]
    omega

/-- The left-to-right coalescing scan of `_merge_intervals`, carrying the
running `(current_start, current_end)` and emitting merged ranges. -/
def scanMerge : ℤ → ℤ → List (ℤ × ℤ) → List (ℤ × ℤ)
  | cs, ce, [] => [(cs, ce)]
  | cs, ce, (s, e) :: rest =>
    if s ≤ ce then scanMerge cs (max ce e) rest else (cs, ce) :: scanMerge s e rest

/-- `_merge_intervals` of `analise_legendas.py`: sort the `(start, end)` ranges
by start (stable; Python `list.sort(key=lambda x: x[0])`), coalesce
left-to-right, and sum the lengths of the merged ranges. -/
def _merge_intervals (intervals : List (ℤ × ℤ)) : ℤ :=
  match intervals.insertionSort (fun a b => a.1 ≤ b.1) with
  | [] => 0
  | p :: rest => ((scanMerge p.1 p.2 rest).map (fun q => q.2 - q.1)).sum

example : _merge_intervals [(0, 5000), (2000, 6000)] = 6000 := by decide

example : _merge_intervals [(1000, 3000), (2000, 4000)] = 3000 := by decide

/-- The naive per-cue display-time sum of `calculate_statistics`
(`analise_legenda.py` line 70). -/
def total_display_time_s (subs : List Cue) : ℤ :=
  (subs.map (fun s => s.endTime - s.start)).sum

/-- The adjacent-pair overlap list of `calculate_statistics`
(`analise_legenda.py` lines 141-152): one entry per file-order pair `(i, i+1)`
with `cue[i].end > cue[i+1].start`, storing both cues and the overlap duration
`min(cue[i].end, cue[i+1].end) - cue[i+1].start`. -/
def overlapsList (subs : List Cue) : List (Cue × Cue × ℤ) :=
  (List.range (subs.length - 1)).filterMap (fun i =>
    match subs[i]?, subs[i + 1]? with
    | some a, some b =>
      if b.start < a.endTime then some (a, b, min a.endTime b.endTime - b.start) else none
    | _, _ => none)

/-- The fields of the dictionary built by `calculate_statistics` in
`analise_legenda.py` that have exact (non-floating-point) values; the
float-valued percentage/average/rate fields are derived from these. -/
structure StatsS where
  num_lines : ℕ
  start_time : ℤ
  total_duration : ℤ
  total_display_time : ℤ
  total_time_without_subtitles : ℤ
  total_words : ℕ
  total_characters : ℕ
  min_duration : ℤ
  max_duration : ℤ
  longest_length : ℕ
  longest_lines : List (ℤ × List Char)
  lines_over_42 : List (ℤ × List (List Char))
  short_duration_lines : List Cue
  overlaps : List (Cue × Cue × ℤ)
  single_lines : List ℤ
  double_lines : List ℤ
  triple_lines : List ℤ
  quadruple_lines : List ℤ
  encoding : List Char
deriving DecidableEq

/-- `calculate_statistics` of `analise_legenda.py`.  The one fallible step is
`max(len(clean_text(line)) for _, line in all_lines)`: on an empty generator
(no cues, hence no lines) Python raises `ValueError`, modelled as `none`. -/
def calculate_statistics (subs : List Cue) : Option StatsS :=
  let all_lines := subs.flatMap (fun s => s.textLines.map (fun ln => (s.seqNum, ln)))
  match all_lines with
  | [] => none
  | al0 :: alrest =>
    let durations := subs.map (fun s => s.endTime - s.start)
    let total_duration := ((subs.getLast?).map (fun s => s.endTime)).getD 0
    let total_display_time := total_display_time_s subs
    let longest_length :=
      (alrest.map (fun p => (clean_text p.2).length)).foldl Nat.max (clean_text al0.2).length
    let bucket := fun (k : ℕ) => (subs.filter (fun s =>
      (s.textLines.filter (fun ln => clean_text ln ≠ [])).length = k)).map (fun s => s.seqNum)
    some {
      num_lines := subs.length
      start_time := ((subs.head?).map (fun s => s.start)).getD 0
      total_duration := total_duration
      total_display_time := total_display_time
      total_time_without_subtitles := total_duration - total_display_time
      total_words := (subs.flatMap (fun s => s.textLines)).foldl
        (fun a ln => a + (pySplitWs (clean_text ln)).length) 0
      total_characters := (subs.flatMap (fun s => s.textLines)).foldl
        (fun a ln => a + (clean_text ln).length) 0
      min_duration := match durations with | [] => 0 | d :: ds => ds.foldl min d
      max_duration := match durations with | [] => 0 | d :: ds => ds.foldl max d
      longest_length := longest_length
      longest_lines := (al0 :: alrest).filter
        (fun p => (clean_text p.2).length = longest_length)
      lines_over_42 := (subs.filter (fun s =>
          s.textLines.any (fun ln => 42 < (clean_text ln).length))).map
        (fun s => (s.seqNum, (s.textLines.map clean_text).filter (fun x => x ≠ [])))
      short_duration_lines := subs.filter (fun s => s.endTime - s.start < 900)
      overlaps := overlapsList subs
      single_lines := bucket 1
      double_lines := bucket 2
      triple_lines := bucket 3
      quadruple_lines := (subs.filter (fun s =>
        4 ≤ (s.textLines.filter (fun ln => clean_text ln ≠ [])).length)).map (fun s => s.seqNum)
      encoding := ((subs.head?).map (fun s => s.encoding)).getD "Unknown".data }

/-- The exact-valued fields of the dictionary built by `analyze_subtitle_file`
in `analise_legendas.py`; times in milliseconds (the source divides by 1000
into float seconds only for display-level fields). -/
structure StatsP where
  num_lines : ℕ
  duration : ℤ
  display_time : ℤ
  silence_time : ℤ
  total_words : ℕ
  total_chars : ℕ
  sum_durations : ℤ
  file_min_duration : ℤ
  file_max_duration : ℤ
  single_lines : ℕ
  double_lines : ℕ
  triple_plus_lines : ℕ
  overlaps : ℕ
  encoding : List Char
deriving DecidableEq

/-- `analyze_subtitle_file` of `analise_legendas.py` from the parsed cue list
on: returns `None` when the list is empty. -/
def analyze_subtitle_file (subs : List Cue) : Option StatsP :=
  match subs with
  | [] => none
  | _ :: _ =>
    let start_time := ((subs.head?).map (fun s => s.start)).getD 0
    let end_time := ((subs.getLast?).map (fun s => s.endTime)).getD 0
    let total_duration := end_time - start_time
    let real_display_time := _merge_intervals (subs.map (fun s => (s.start, s.endTime)))
    let durations := subs.map (fun s => s.endTime - s.start)
    let line_counts := subs.map (fun s => s.textLines.length)
    some {
      num_lines := subs.length
      duration := total_duration
      display_time := real_display_time
      silence_time := total_duration - real_display_time
      total_words := (subs.flatMap (fun s => s.textLines)).foldl
        (fun a ln => a + (pySplitWs ln).length) 0
      total_chars := (subs.flatMap (fun s => s.textLines)).foldl
        (fun a ln => a + ln.length) 0
      sum_durations := durations.sum
      file_min_duration := match durations with | [] => 0 | d :: ds => ds.foldl min d
      file_max_duration := match durations with | [] => 0 | d :: ds => ds.foldl max d
      single_lines := (line_counts.filter (fun c => c = 1)).length
      double_lines := (line_counts.filter (fun c => c = 2)).length
      triple_plus_lines := (line_counts.filter (fun c => 3 ≤ c)).length
      overlaps := ((List.range (subs.length - 1)).filter (fun i =>
        match subs[i]?, subs[i + 1]? with
        | some a, some b => decide (b.start < a.endTime)
        | _, _ => false)).length
      encoding := ((subs.head?).map (fun s => s.encoding)).getD "Unknown".data }

/-! ### Interval-merge theory -/

/-- Naive sum of range lengths. -/
def sumLens (l : List (ℤ × ℤ)) : ℤ := (l.map (fun q => q.2 - q.1)).sum

/-- The half-open ranges `[p.1, p.2)` and `[q.1, q.2)` intersect. -/
def rangesOverlap (p q : ℤ × ℤ) : Prop := max p.1 q.1 < min p.2 q.2

instance (p q : ℤ × ℤ) : Decidable (rangesOverlap p q) := by
  unfold rangesOverlap
  infer_instance

instance : IsTotal (ℤ × ℤ) (fun a b : ℤ × ℤ => a.1 ≤ b.1) := ⟨fun a b => le_total a.1 b.1⟩

instance : IsTrans (ℤ × ℤ) (fun a b : ℤ × ℤ => a.1 ≤ b.1) := ⟨fun _ _ _ h1 h2 => le_trans h1 h2⟩

theorem rangesOverlap_symm {p q : ℤ × ℤ} (h : rangesOverlap p q) : rangesOverlap q p := by
  rw [rangesOverlap] at h ⊢
  omega

theorem sumLens_cons {p : ℤ × ℤ} {l : List (ℤ × ℤ)} :
    sumLens (p :: l) = (p.2 - p.1) + sumLens l := by
  simp [sumLens]

theorem scanMerge_bound :
    ∀ (rest : List (ℤ × ℤ)) (cs ce : ℤ),
      rest.Pairwise (fun a b => a.1 ≤ b.1) →
      (∀ q ∈ rest, q.1 ≤ q.2) →
      (∀ q ∈ rest, cs ≤ q.1) →
      cs ≤ ce →
      sumLens (scanMerge cs ce rest) ≤ (ce - cs) + sumLens rest ∧
      (sumLens (scanMerge cs ce rest) = (ce - cs) + sumLens rest ↔
        ((cs, ce) :: rest).Pairwise (fun p q => ¬ rangesOverlap p q))
  | [], cs, ce, _, _, _, _ => by
    refine ⟨by simp [scanMerge, sumLens], by simp [scanMerge, sumLens]⟩
  | (s, e) :: rest2, cs, ce, hsort, hwf, hstart, hce => by
    rw [List.pairwise_cons] at hsort
    obtain ⟨hs_le, hsort2⟩ := hsort
    have hse : s ≤ e := hwf (s, e) (by simp)
    have hcs_s : cs ≤ s := hstart (s, e) (by simp)
    have hwf2 : ∀ q ∈ rest2, q.1 ≤ q.2 := fun q hq => hwf q (by simp [hq])
    by_cases hA : s ≤ ce
    · -- coalescing step
      rw [scanMerge, if_pos hA]
      have IH := scanMerge_bound rest2 cs (max ce e) hsort2 hwf2
        (fun q hq => le_trans hcs_s (hs_le q hq))
        (le_trans hce (le_max_left ce e))
      have hpair_iff : ∀ q ∈ rest2,
          (¬ rangesOverlap (cs, max ce e) q ↔
            (¬ rangesOverlap (cs, ce) q ∧ ¬ rangesOverlap (s, e) q)) := by
        intro q hq
        have h1 := hs_le q hq
        simp only [rangesOverlap]
        omega
      have hface : max ce e - cs = (ce - cs) + (e - s) ↔ ¬ rangesOverlap (cs, ce) (s, e) := by
        simp only [rangesOverlap]
        omega
      constructor
      · have h2 := IH.1
        rw [sumLens_cons]
        simp only
        omega
      · rw [sumLens_cons]
        simp only
        constructor
        · intro heq
          have hle1 := IH.1
          have heq1 : sumLens (scanMerge cs (max ce e) rest2)
              = (max ce e - cs) + sumLens rest2 := by omega
          have heq2 : max ce e - cs = (ce - cs) + (e - s) := by omega
          have hnov := hface.mp heq2
          have hP := IH.2.mp heq1
          rw [List.pairwise_cons] at hP
          rw [List.pairwise_cons, List.pairwise_cons]
          refine ⟨?_, ?_, hP.2⟩
          · intro b hb
            rcases List.mem_cons.mp hb with hb1 | hb2
            · subst hb1
              exact hnov
            · exact ((hpair_iff b hb2).mp (hP.1 b hb2)).1
          · intro b hb
            exact ((hpair_iff b hb).mp (hP.1 b hb)).2
        · intro hP
          rw [List.pairwise_cons, List.pairwise_cons] at hP
          obtain ⟨h1, h2, h3⟩ := hP
          have hnov : ¬ rangesOverlap (cs, ce) (s, e) := h1 (s, e) (by simp)
          have heq2 : max ce e - cs = (ce - cs) + (e - s) := hface.mpr hnov
          have hP2 : ((cs, max ce e) :: rest2).Pairwise (fun p q => ¬ rangesOverlap p q) := by
            rw [List.pairwise_cons]
            exact ⟨fun b hb => (hpair_iff b hb).mpr
              ⟨h1 b (List.mem_cons_of_mem _ hb), h2 b hb⟩, h3⟩
          have heq1 := IH.2.mpr hP2
          omega
    · -- the current merged range is emitted
      rw [scanMerge, if_neg hA]
      have IH := scanMerge_bound rest2 s e hsort2 hwf2 hs_le hse
      have hauto1 : ¬ rangesOverlap (cs, ce) (s, e) := by
        simp only [rangesOverlap]
        omega
      have hauto2 : ∀ q ∈ rest2, ¬ rangesOverlap (cs, ce) q := by
        intro q hq
        have h1 := hs_le q hq
        simp only [rangesOverlap]
        omega
      constructor
      · have h2 := IH.1
        rw [sumLens_cons, sumLens_cons]
        dsimp only
        omega
      · rw [sumLens_cons, sumLens_cons]
        dsimp only
        constructor
        · intro heq
          have heq1 : sumLens (scanMerge s e rest2) = (e - s) + sumLens rest2 := by omega
          have hP := IH.2.mp heq1
          rw [List.pairwise_cons]
          refine ⟨?_, hP⟩
          intro b hb
          rcases List.mem_cons.mp hb with hb1 | hb2
          · subst hb1
            exact hauto1
          · exact hauto2 b hb2
        · intro hP
          rw [List.pairwise_cons] at hP
          have heq1 := IH.2.mpr hP.2
          omega

/-- `_merge_intervals` on well-formed ranges is at most the naive length sum,
with equality exactly when no two ranges intersect. -/
theorem merge_le_sum_iff (l : List (ℤ × ℤ)) (hwf : ∀ p ∈ l, p.1 ≤ p.2) :
    _merge_intervals l ≤ sumLens l ∧
      (_merge_intervals l = sumLens l ↔ l.Pairwise (fun p q => ¬ rangesOverlap p q)) := by
  have hperm : (l.insertionSort (fun a b => a.1 ≤ b.1)).Perm l :=
    List.perm_insertionSort _ l
  have hsum : sumLens (l.insertionSort (fun a b => a.1 ≤ b.1)) = sumLens l := by
    rw [sumLens, sumLens]
    exact (hperm.map _).sum_eq
  have hpw : (l.insertionSort (fun a b => a.1 ≤ b.1)).Pairwise (fun p q => ¬ rangesOverlap p q)
      ↔ l.Pairwise (fun p q => ¬ rangesOverlap p q) := by
    refine List.Perm.pairwise_iff ?_ hperm
    intro a b hab h2
    exact hab (rangesOverlap_symm h2)
  have hsorted : (l.insertionSort (fun a b => a.1 ≤ b.1)).Pairwise (fun a b => a.1 ≤ b.1) :=
    List.sorted_insertionSort _ l
  have hwf2 : ∀ p ∈ l.insertionSort (fun a b => a.1 ≤ b.1), p.1 ≤ p.2 :=
    fun p hp => hwf p (hperm.mem_iff.mp hp)
  rw [_merge_intervals]
  cases hs : l.insertionSort (fun a b => a.1 ≤ b.1) with
  | nil =>
    have : l = [] := by
      have := hperm.length_eq
      rw [hs] at this
      exact List.length_eq_zero.mp this.symm
    subst this
    simp [sumLens]
  | cons p rest =>
    dsimp only
    rw [hs] at hperm hsum hpw hsorted hwf2
    rw [List.pairwise_cons] at hsorted
    have hwfp : p.1 ≤ p.2 := hwf2 p (by simp)
    have hKey := scanMerge_bound rest p.1 p.2 hsorted.2
      (fun q hq => hwf2 q (by simp [hq]))
      (fun q hq => hsorted.1 q hq) hwfp
    have hview : ((p.1, p.2) :: rest) = p :: rest := by
      rw [Prod.mk.eta]
    rw [hview] at hKey
    have hv : sumLens (scanMerge p.1 p.2 rest)
        = ((scanMerge p.1 p.2 rest).map (fun q => q.2 - q.1)).sum := rfl
    constructor
    · have h2 := hKey.1
      rw [← hsum, sumLens_cons]
      omega
    · have h2 := hKey.2
      rw [← hsum, sumLens_cons, ← hpw, ← hv]
      exact h2

/-! ### Overlap-list characterization (adjacent file-order pairs) -/

/-- The overlap list as the spec states it: one entry per adjacent file-order
pair `(i, i+1)` with `cue[i].end > cue[i+1].start`, carrying both cues and
`min(cue[i].end, cue[i+1].end) - cue[i+1].start`. -/
def overlapSpec (subs : List Cue) : List (Cue × Cue × ℤ) :=
  (subs.zip subs.tail).filterMap (fun p =>
    if p.2.start < p.1.endTime
    then some (p.1, p.2, min p.1.endTime p.2.endTime - p.2.start) else none)

theorem overlapsList_eq_spec : ∀ subs : List Cue, overlapsList subs = overlapSpec subs
  | [] => rfl
  | [a] => rfl
  | a :: b :: t => by
    have IH := overlapsList_eq_spec (b :: t)
    rw [overlapsList, overlapSpec]
    have hlen : (a :: b :: t).length - 1 = t.length + 1 := by simp
    rw [hlen, List.range_succ_eq_map, List.filterMap_cons, List.filterMap_map]
    have hzip : (a :: b :: t).zip (a :: b :: t).tail = (a, b) :: ((b :: t).zip t) := rfl
    rw [hzip, List.filterMap_cons]
    have hshift : (List.range (t.length)).filterMap
        ((fun i =>
          match (a :: b :: t)[i]?, (a :: b :: t)[i + 1]? with
          | some a2, some b2 =>
            if b2.start < a2.endTime
            then some (a2, b2, min a2.endTime b2.endTime - b2.start) else none
          | _, _ => none) ∘ Nat.succ)
        = overlapsList (b :: t) := by
      rw [overlapsList]
      have hlen2 : (b :: t).length - 1 = t.length := by simp
      rw [hlen2]
      apply List.filterMap_congr
      intro i _
      simp [Function.comp]
    rw [hshift, IH]
    simp only [List.getElem?_cons_zero, List.getElem?_cons_succ]
    rfl

/-- The overlap list is empty exactly when every adjacent file-order pair
satisfies `cue[i].end ≤ cue[i+1].start`. -/
theorem overlapsList_eq_nil_iff (subs : List Cue) :
    overlapsList subs = [] ↔ List.Chain' (fun a b => a.endTime ≤ b.start) subs := by
  rw [overlapsList_eq_spec, overlapSpec, List.filterMap_eq_nil_iff]
  induction subs with
  | nil => simp
  | cons a t ih =>
    cases t with
    | nil => simp
    | cons b t2 =>
      rw [List.chain'_cons]
      have hzip : (a :: b :: t2).zip (a :: b :: t2).tail = (a, b) :: ((b :: t2).zip t2) := rfl
      rw [hzip]
      constructor
      · intro h
        constructor
        · have h1 := h (a, b) (by simp)
          simp only at h1
          by_cases hc : b.start < a.endTime
          · rw [if_pos hc] at h1
            cases h1
          · omega
        · exact ih.mp (fun p hp => h p (List.mem_cons_of_mem _ hp))
      · intro ⟨h1, h2⟩
        intro p hp
        rcases List.mem_cons.mp hp with hp1 | hp2
        · subst hp1
          simp only
          rw [if_neg (by omega)]
        · exact ih.mpr h2 p hp2

/-! ### Parser-level lemmas -/

/-- C3: a block whose first line does not parse as an integer but whose second
line matches the timestamp grammar yields a cue with `sequence_number = 0` in
`parse_srt` of `analise_legendas.py` (the `try/except ValueError` fallback);
no exception escapes and the rest of the file is unaffected (each block is
parsed independently by `filterMap`). -/
theorem claim_C3 (encoding l0 l1 : List Char) (rest : List (List Char))
    (t1 t2 : ℕ) (hint : pyInt l0 = none) (ht : matchTiming l1 = some (t1, t2)) :
    parseBlockP encoding (l0 :: l1 :: rest)
      = some { start := (t1 : ℤ), endTime := (t2 : ℤ),
               textLines := (rest.map clean_text).filter (fun x => x ≠ []),
               seqNum := 0, encoding := encoding } := by
  rw [parseBlockP, ht, hint]
  rfl

/-- C5: every cue kept by `parse_srt` of `analise_legenda.py` stores the
block lines from index 2 on verbatim: unmodified, in order, with no
sanitization and no empty-line filtering at parse time. -/
theorem claim_C5 (encoding l0 l1 : List Char) (rest : List (List Char)) (c : Cue)
    (h : parseBlockS encoding (l0 :: l1 :: rest) = .ok (some c)) : c.textLines = rest := by
  rw [parseBlockS] at h
  by_cases hlen : (l0 :: l1 :: rest).length < 3
  · rw [if_pos hlen] at h
    cases h
  · rw [if_neg hlen] at h
    cases ht : matchTiming l1 with
    | none =>
      rw [ht] at h
      cases h
    | some t12 =>
      obtain ⟨t1, t2⟩ := t12
      rw [ht] at h
      cases hi : pyInt l0 with
      | none =>
        rw [hi] at h
        cases h
      | some n =>
        rw [hi] at h
        cases h
        rfl

/-! ### The claims -/

def exampleCue1 : Cue :=
  { start := 1000, endTime := 3000, textLines := ["Hi".data], seqNum := 1,
    encoding := "utf-8".data }

def exampleCue2 : Cue :=
  { start := 2000, endTime := 4000, textLines := ["There".data], seqNum := 2,
    encoding := "utf-8".data }

def badCue1 : Cue := { start := 0, endTime := 10, textLines := [], seqNum := 1, encoding := [] }

def badCue2 : Cue := { start := 2, endTime := 1, textLines := [], seqNum := 2, encoding := [] }

/-- C1 (amended): in `analyze_subtitle_file` of `analise_legendas.py` the
reported display time is `_merge_intervals` of the cue `[start, end)` ranges —
the sort/coalesce/sum interval union — and on the two example cues
`00:00:01,000-->00:00:03,000`, `00:00:02,000-->00:00:04,000` that union is
3000 ms while the naive per-cue sum is 4000 ms.  (`calculate_statistics` of
`analise_legenda.py` reports the naive sum instead — see the counterexample.) -/
theorem claim_C1 (subs : List Cue) (h : subs ≠ []) :
    (analyze_subtitle_file subs).map StatsP.display_time
      = some (_merge_intervals (subs.map (fun s => (s.start, s.endTime)))) ∧
    _merge_intervals [((1000 : ℤ), 3000), (2000, 4000)] = 3000 ∧
    sumLens [((1000 : ℤ), 3000), (2000, 4000)] = 4000 := by
  refine ⟨?_, by decide, by decide⟩
  cases subs with
  | nil => exact absurd rfl h
  | cons s0 rest => rfl

theorem claim_C1_witness :
    ([exampleCue1, exampleCue2] : List Cue) ≠ [] ∧
    ((analyze_subtitle_file [exampleCue1, exampleCue2]).map StatsP.display_time
      = some (_merge_intervals ([exampleCue1, exampleCue2].map (fun s => (s.start, s.endTime)))) ∧
    _merge_intervals [((1000 : ℤ), 3000), (2000, 4000)] = 3000 ∧
    sumLens [((1000 : ℤ), 3000), (2000, 4000)] = 4000) :=
  ⟨by decide, claim_C1 [exampleCue1, exampleCue2] (by decide)⟩

/-- C1 counterexample: on the two example cues, `calculate_statistics` of
`analise_legenda.py` reports `total_display_time = 4000` ms — the naive
per-cue sum — which differs from the 3000 ms interval union, so the claim
as stated fails for that engine. -/
theorem claim_C1_counterexample :
    (calculate_statistics [exampleCue1, exampleCue2]).map StatsS.total_display_time
      = some 4000 ∧
    _merge_intervals ([exampleCue1, exampleCue2].map (fun s => (s.start, s.endTime))) = 3000 ∧
    (calculate_statistics [exampleCue1, exampleCue2]).map StatsS.total_display_time
      ≠ some (_merge_intervals ([exampleCue1, exampleCue2].map (fun s => (s.start, s.endTime)))) := by
  refine ⟨by decide, by decide, by decide⟩

/-- C2: on the empty cue sequence neither engine returns an all-zero report:
`calculate_statistics` of `analise_legenda.py` raises `ValueError` (the
unguarded `max()` over the empty line generator, modelled as `none`), and
`analyze_subtitle_file` of `analise_legendas.py` returns `None`. -/
theorem claim_C2 : calculate_statistics [] = none ∧ analyze_subtitle_file [] = none :=
  ⟨rfl, rfl⟩

theorem claim_C3_witness :
    pyInt "abc".data = none ∧
    matchTiming "00:00:01,000 --> 00:00:02,000".data = some (1000, 2000) ∧
    parseBlockP "utf-8".data
        ["abc".data, "00:00:01,000 --> 00:00:02,000".data, "Hi".data]
      = some { start := 1000, endTime := 2000,
               textLines := (["Hi".data].map clean_text).filter (fun x => x ≠ []),
               seqNum := 0, encoding := "utf-8".data } :=
  ⟨by decide, by decide, claim_C3 _ _ _ _ _ _ (by decide) (by decide)⟩

/-- C3 counterexample: `parse_srt` of `analise_legenda.py` calls
`int(lines[0])` unguarded, so the same block aborts the whole parse with
`ValueError` instead of producing a cue with sequence number 0. -/
theorem claim_C3_counterexample :
    parse_srt_s "utf-8".data "abc\n00:00:01,000 --> 00:00:02,000\nHi".data = .error () := rfl

/-- C4 (amended): in `analyze_subtitle_file` of `analise_legendas.py` the
reported file span equals `last_cue.end - first_cue.start`.
(`calculate_statistics` of `analise_legenda.py` instead uses `last_cue.end`
alone — see the counterexample.) -/
theorem claim_C4 (subs : List Cue) (h : subs ≠ []) :
    (analyze_subtitle_file subs).map StatsP.duration
      = some ((subs.getLast h).endTime - (subs.head h).start) := by
  cases subs with
  | nil => exact absurd rfl h
  | cons s0 rest =>
    have h1 : (s0 :: rest).getLast? = some ((s0 :: rest).getLast h) :=
      List.getLast?_eq_getLast _ h
    show some (((((s0 :: rest).getLast?).map (fun s => s.endTime)).getD 0)
        - ((((s0 :: rest).head?).map (fun s => s.start)).getD 0)) = _
    rw [h1]
    rfl

theorem claim_C4_witness :
    ([exampleCue1, exampleCue2] : List Cue) ≠ [] ∧
    (analyze_subtitle_file [exampleCue1, exampleCue2]).map StatsP.duration = some 3000 := by
  refine ⟨by decide, ?_⟩
  have h := claim_C4 [exampleCue1, exampleCue2] (by decide)
  simpa using h

/-- C4 counterexample: for a single cue spanning 1000 ms to 3000 ms,
`calculate_statistics` of `analise_legenda.py` reports `total_duration =
3000` ms (the last cue's end measured from file time zero), not
`last_cue.end - first_cue.start = 2000` ms. -/
theorem claim_C4_counterexample :
    (calculate_statistics [exampleCue1]).map StatsS.total_duration = some 3000 ∧
    exampleCue1.endTime - exampleCue1.start = 2000 ∧
    (calculate_statistics [exampleCue1]).map StatsS.total_duration ≠ some 2000 := by
  refine ⟨by decide, by decide, by decide⟩

theorem claim_C5_witness :
    parseBlockS "utf-8".data
        ["1".data, "00:00:01,000 --> 00:00:02,000".data, "<i>Hi</i>".data]
      = .ok (some { start := 1000, endTime := 2000, textLines := ["<i>Hi</i>".data],
                    seqNum := 1, encoding := "utf-8".data }) ∧
    ({ start := 1000, endTime := 2000, textLines := ["<i>Hi</i>".data], seqNum := 1,
       encoding := "utf-8".data } : Cue).textLines = ["<i>Hi</i>".data] :=
  ⟨rfl, claim_C5 "utf-8".data "1".data "00:00:01,000 --> 00:00:02,000".data
    ["<i>Hi</i>".data]
    { start := 1000, endTime := 2000, textLines := ["<i>Hi</i>".data], seqNum := 1,
      encoding := "utf-8".data } (by rfl)⟩

/-- C5 counterexample: `parse_srt` of `analise_legendas.py` sanitizes and
filters the text lines at parse time: the raw line `<i>Hi</i>` is stored as
`Hi`, not verbatim. -/
theorem claim_C5_counterexample :
    (parseBlockP "utf-8".data
        ["1".data, "00:00:01,000 --> 00:00:02,000".data, "<i>Hi</i>".data]).map Cue.textLines
      = some ["Hi".data] ∧
    (["Hi".data] : List (List Char)) ≠ ["<i>Hi</i>".data] := by
  constructor
  · simp +decide [parseBlockP, matchTiming, parse_time, pyInt, digitsToNat, digitVal, pyStrip,
      clean_text, subDelim, findClose, subSlash, slashMatchAt, isPySpace, isWordChar,
      List.rdropWhile, List.dropWhile, List.takeWhile]
  · decide

/-- C6 (amended): `parse_srt` of `analise_legendas.py` discards a block
exactly when it has fewer than 2 lines or its line 1 fails the timestamp
grammar; a 2-line block with a matching timing line is kept and yields a cue
with no text lines.  (`parse_srt` of `analise_legenda.py` requires 3 lines and
discards such blocks — see the counterexample.) -/
theorem claim_C6 (encoding l0 l1 : List Char) (rest : List (List Char)) (t : ℕ × ℕ)
    (ht : matchTiming l1 = some t) :
    parseBlockP encoding [] = none ∧
    parseBlockP encoding [l0] = none ∧
    (parseBlockP encoding (l0 :: l1 :: rest)).isSome = true ∧
    parseBlockP encoding [l0, l1]
      = some { start := (t.1 : ℤ), endTime := (t.2 : ℤ), textLines := [],
               seqNum := (pyInt l0).getD 0, encoding := encoding } ∧
    (∀ l1b : List Char, matchTiming l1b = none →
      parseBlockP encoding (l0 :: l1b :: rest) = none) := by
  obtain ⟨t1, t2⟩ := t
  refine ⟨rfl, rfl, ?_, ?_, ?_⟩
  · rw [parseBlockP, ht]
    rfl
  · rw [parseBlockP, ht]
    rfl
  · intro l1b hb
    rw [parseBlockP, hb]

theorem claim_C6_witness :
    matchTiming "00:00:01,000 --> 00:00:02,000".data = some (1000, 2000) ∧
    (parseBlockP "utf-8".data [] = none ∧
    parseBlockP "utf-8".data ["1".data] = none ∧
    (parseBlockP "utf-8".data
      ["1".data, "00:00:01,000 --> 00:00:02,000".data, "Hi".data]).isSome = true ∧
    parseBlockP "utf-8".data ["1".data, "00:00:01,000 --> 00:00:02,000".data]
      = some { start := ((1000 : ℕ) : ℤ), endTime := ((2000 : ℕ) : ℤ), textLines := [],
               seqNum := (pyInt "1".data).getD 0, encoding := "utf-8".data } ∧
    (∀ l1b : List Char, matchTiming l1b = none →
      parseBlockP "utf-8".data ("1".data :: l1b :: ["Hi".data]) = none)) :=
  ⟨by decide, claim_C6 "utf-8".data "1".data "00:00:01,000 --> 00:00:02,000".data
    ["Hi".data] (1000, 2000) (by decide)⟩

/-- C6 counterexample: `parse_srt` of `analise_legenda.py` discards any block
with fewer than 3 lines, so a 2-line block (sequence number plus matching
timing line, no text) is dropped rather than kept. -/
theorem claim_C6_counterexample :
    parseBlockS "utf-8".data ["1".data, "00:00:01,000 --> 00:00:02,000".data] = .ok none ∧
    parse_srt_s "utf-8".data "1\n00:00:01,000 --> 00:00:02,000".data = .ok [] :=
  ⟨rfl, rfl⟩

/-- C7: the overlap list of `calculate_statistics` contains exactly one entry
per adjacent file-order pair `(i, i+1)` with `cue[i].end > cue[i+1].start`,
recording both cues and the duration
`min(cue[i].end, cue[i+1].end) - cue[i+1].start`; it is empty iff
`cue[i].end ≤ cue[i+1].start` for every adjacent file-order pair. -/
theorem claim_C7 (subs : List Cue) :
    overlapsList subs = overlapSpec subs ∧
    (overlapsList subs = [] ↔ List.Chain' (fun a b => a.endTime ≤ b.start) subs) :=
  ⟨overlapsList_eq_spec subs, overlapsList_eq_nil_iff subs⟩

/-- C8 (amended): for cue sequences in which every cue is well-formed
(`start ≤ end`), the interval-merger display time is at most the per-cue
duration sum, with equality iff no two cues' `[start, end)` ranges intersect.
(For an ill-formed cue with `end < start` the inequality can fail — see the
counterexample.) -/
theorem claim_C8 (subs : List Cue) (hwf : ∀ s ∈ subs, s.start ≤ s.endTime) :
    _merge_intervals (subs.map (fun s => (s.start, s.endTime))) ≤ total_display_time_s subs ∧
    (_merge_intervals (subs.map (fun s => (s.start, s.endTime))) = total_display_time_s subs ↔
      (subs.map (fun s => (s.start, s.endTime))).Pairwise (fun p q => ¬ rangesOverlap p q)) := by
  have hwf2 : ∀ p ∈ subs.map (fun s => (s.start, s.endTime)), p.1 ≤ p.2 := by
    intro p hp
    obtain ⟨s2, hs2, rfl⟩ := List.mem_map.mp hp
    exact hwf s2 hs2
  have hkey := merge_le_sum_iff _ hwf2
  have hsum : sumLens (subs.map (fun s => (s.start, s.endTime))) = total_display_time_s subs := by
    rw [sumLens, total_display_time_s, List.map_map]
    rfl
  rw [hsum] at hkey
  exact hkey

theorem claim_C8_witness :
    (∀ s ∈ ([exampleCue1, exampleCue2] : List Cue), s.start ≤ s.endTime) ∧
    (_merge_intervals ([exampleCue1, exampleCue2].map (fun s => (s.start, s.endTime)))
        ≤ total_display_time_s [exampleCue1, exampleCue2] ∧
    (_merge_intervals ([exampleCue1, exampleCue2].map (fun s => (s.start, s.endTime)))
        = total_display_time_s [exampleCue1, exampleCue2] ↔
      ([exampleCue1, exampleCue2].map (fun s => (s.start, s.endTime))).Pairwise
        (fun p q => ¬ rangesOverlap p q))) :=
  ⟨by decide, claim_C8 [exampleCue1, exampleCue2] (by decide)⟩

/-- C8 counterexample: with the ill-formed second cue `[2, 1)` (end < start),
the merger coalesces it into `[0, 10)` and reports 10 ms, which exceeds the
per-cue sum `10 + (-1) = 9` ms — the claimed inequality fails. -/
theorem claim_C8_counterexample :
    _merge_intervals ([badCue1, badCue2].map (fun s => (s.start, s.endTime))) = 10 ∧
    total_display_time_s [badCue1, badCue2] = 9 ∧
    ¬ _merge_intervals ([badCue1, badCue2].map (fun s => (s.start, s.endTime)))
        ≤ total_display_time_s [badCue1, badCue2] := by
  refine ⟨by decide, by decide, by decide⟩

/-- C9 (amended): for every string matching the `HH:MM:SS,mmm` pattern whose
minutes and seconds fields are below 60, re-encoding the decoded duration
reproduces the string exactly.  (A pattern-matching string like `00:99:00,000`
is normalized on re-encoding — see the counterexample.) -/
theorem claim_C9 (h1 h2 m1 m2 s1 s2 x1 x2 x3 : Char) (t : ℕ)
    (hp : parse_time [h1, h2, ':', m1, m2, ':', s1, s2, ',', x1, x2, x3] = some t)
    (hm : digitVal m1 * 10 + digitVal m2 ≤ 59)
    (hs : digitVal s1 * 10 + digitVal s2 ≤ 59) :
    format_timedelta t = [h1, h2, ':', m1, m2, ':', s1, s2, ',', x1, x2, x3] :=
  format_parse_roundtrip hp hm hs

theorem claim_C9_witness :
    parse_time "01:23:45,678".data = some 5025678 ∧
    digitVal '2' * 10 + digitVal '3' ≤ 59 ∧
    digitVal '4' * 10 + digitVal '5' ≤ 59 ∧
    format_timedelta 5025678 = "01:23:45,678".data := by
  refine ⟨by decide, by decide, by decide, ?_⟩
  have h := claim_C9 '0' '1' '2' '3' '4' '5' '6' '7' '8' 5025678
    (by decide) (by decide) (by decide)
  simpa using h

/-- C9 counterexample: `00:99:00,000` matches the 2-2-2-3 digit pattern but
re-encodes as the normalized `01:39:00,000`, so `encode(decode(s)) = s` fails
for it. -/
theorem claim_C9_counterexample :
    (parse_time "00:99:00,000".data).map format_timedelta = some "01:39:00,000".data ∧
    ("01:39:00,000".data : List Char) ≠ "00:99:00,000".data := by
  refine ⟨by decide, by decide⟩

/-- C10: the text sanitizer is idempotent: `clean_text (clean_text s) =
clean_text s` for every string, where `clean_text` removes angle-bracket
spans, then brace spans, then backslash-letter codes (each a single
non-greedy left-to-right pass) and trims surrounding whitespace. -/
theorem claim_C10 (l : List Char) : clean_text (clean_text l) = clean_text l :=
  clean_text_idempotent l

end Srt
